import Mathlib

/-!
# Renderer-CUDA: the sequential circle rasteriser (`sequential.cpp`)

A shallow embedding of `renderCirclesSequential` and the properties of its output.

Modelling conventions.

* `float` is IEEE 754 binary32.  A finite `float` value is represented by the rational number
  it denotes, and every arithmetic operation returns the exact result rounded once to the
  nearest binary32 value, ties to even (`f32round`), with the gradual underflow of binary32.
  Overflow to infinity and NaN are not represented: in the rasteriser every computed `float`
  is converted to an integer type, which C++ leaves undefined for such values.
* `int` is 32 bits wide.  An `int` value is an `Int` in `[-2³¹, 2³¹)`, and every `int`
  operation of the circle geometry (lines 26-40: the negation `-radius`, the sums
  `centerX + dx`, `centerY + dy`, the products and the sum of the disc test) returns its
  exact result wrapped to 32 bits in two's complement (`wrap32`), which is what the compiled
  code computes where ISO C++ leaves signed overflow undefined.  `static_cast<int>` of a
  `float` whose truncation does not fit gives `-2³¹`, the result of the x86-64 conversion.
  The loop counters cannot overflow at `++dy`, `++dx`: they run up to `radius`, and a binary32
  value never truncates to `2³¹ - 1` (`toInt_f32round_lt_intMax`).  The byte count `canvas_width * canvas_height * 4` and the offsets
  `(y * canvas_width + x) * 4 + k` of in-bounds pixels, which lie below it, are computed
  exactly: the caller's contract is a buffer of that many bytes, a count that fits an `int`.
* `unsigned char` is a `Nat` below 256.  `static_cast<unsigned char>` of a `float` truncates
  toward zero; outside `[0, 256)` (undefined in ISO C++) the model converts to `int` and keeps
  the low 8 bits, which is what the usual compiled code does.
* The pixel buffer `unsigned char* pixels` is a `List Nat`.  Every read and write goes through
  `readByte` / `writeByte`, which return `none` for an index outside the buffer, so a `some`
  result of the renderer means that no access left the buffer.
-/

namespace Renderer

/-! ## Floating point -/

/-- Round a rational to the nearest integer, ties to the even one. -/
def roundHalfEven (q : ℚ) : ℤ :=
  let f : ℤ := ⌊q⌋
  let d : ℚ := q - f
  if d < 1 / 2 then f
  else if 1 / 2 < d then f + 1
  else if f % 2 = 0 then f else f + 1

/-- Halve `n` until it drops below 2, at most `fuel` times, counting the halvings. -/
def log2Fuel : Nat → Nat → Nat
  | 0, _ => 0
  | fuel + 1, n => if n < 2 then 0 else log2Fuel fuel (n / 2) + 1

/-- The bit length of `n` less one: `⌊log₂ n⌋` for `n ≥ 1`. -/
def natLog2 (n : Nat) : Nat := log2Fuel n n

/-- The exponent `⌊log₂ q⌋` of a positive rational `q`, from the bit lengths of its numerator
and denominator. -/
def floorLog2 (q : ℚ) : ℤ :=
  let k : ℤ := (natLog2 q.num.natAbs : ℤ) - (natLog2 q.den : ℤ)
  if (2 : ℚ) ^ k ≤ q then k else k - 1

/-- Round a rational to the nearest binary32 value (24-bit significand, least exponent -126,
ties to even).  The unit in the last place of `q` is `2 ^ (e - 23)` with
`e = max ⌊log₂ |q|⌋ (-126)`. -/
def f32round (q : ℚ) : ℚ :=
  if q = 0 then 0
  else
    let e : ℤ := max (floorLog2 |q|) (-126)
    let ulp : ℚ := (2 : ℚ) ^ (e - 23)
    (roundHalfEven (q / ulp) : ℚ) * ulp

/-- The `float` product `a * b`. -/
def fmul (a b : ℚ) : ℚ := f32round (a * b)

/-- The `float` sum `a + b`. -/
def fadd (a b : ℚ) : ℚ := f32round (a + b)

/-- The `float` difference `a - b`. -/
def fsub (a b : ℚ) : ℚ := f32round (a - b)

/-- The value a 32-bit `int` holds after an operation whose exact result is `z`:
two's-complement wrap-around into `[-2³¹, 2³¹)`. -/
def wrap32 (z : Int) : Int :=
  (z + 2147483648) % 4294967296 - 2147483648

/-- Truncation toward zero. -/
def truncate (f : ℚ) : Int :=
  if 0 ≤ f then ⌊f⌋ else -⌊-f⌋

/-- The conversion `static_cast<int>(f)`: truncation toward zero; a value whose truncation
does not fit an `int` converts to `-2³¹`. -/
def toInt (f : ℚ) : Int :=
  if -2147483648 ≤ truncate f ∧ truncate f ≤ 2147483647 then truncate f else -2147483648

/-- The conversion `static_cast<unsigned char>(f)`: the conversion to `int`, kept to its low
8 bits. -/
def toUChar (f : ℚ) : Nat :=
  (toInt f % 256).toNat

/-! ## The circle and the pixel buffer -/

/-- The source's `struct Circle { float x, y, radius; float r, g, b, a; }`. -/
structure Circle where
  x : ℚ
  y : ℚ
  radius : ℚ
  r : ℚ
  g : ℚ
  b : ℚ
  a : ℚ
  deriving DecidableEq

/-- The read `pixels[i]`; `none` when `i` is outside the buffer. -/
def readByte (pixels : List Nat) (i : Int) : Option Nat :=
  if 0 ≤ i then pixels[i.toNat]? else none

/-- The write `pixels[i] = v`; `none` when `i` is outside the buffer. -/
def writeByte (pixels : List Nat) (i : Int) (v : Nat) : Option (List Nat) :=
  if 0 ≤ i ∧ i.toNat < pixels.length then some (pixels.set i.toNat v) else none

/-- The call `std::fill(pixels, pixels + n, 0)`; `none` when the range `[0, n)` is not inside
the buffer. -/
def fillZero (pixels : List Nat) (n : Int) : Option (List Nat) :=
  if 0 ≤ n ∧ n.toNat ≤ pixels.length then
    some (List.replicate n.toNat 0 ++ pixels.drop n.toNat)
  else none

/-- The values `lo, lo + 1, ..., hi` a loop `for (v = lo; v <= hi; ++v)` runs through. -/
def intRange (lo hi : Int) : List Int :=
  (List.range (hi + 1 - lo).toNat).map (fun (k : Nat) => lo + (k : Int))

/-! ## The rasteriser -/

/-- One blended channel, lines 58-61:
`static_cast<unsigned char>(alpha * src + (1 - alpha) * dest)`. -/
def blendChannel (alpha : ℚ) (src dest : Nat) : Nat :=
  toUChar (fadd (fmul alpha (src : ℚ)) (fmul (fsub 1 alpha) (dest : ℚ)))

/-- The source byte of a channel, lines 50-53: `static_cast<unsigned char>(channel * 255)`. -/
def srcByte (channel : ℚ) : Nat :=
  toUChar (fmul channel 255)

/-- Lines 41-61: the body of the disc test, blending `circle` into the pixel `(x, y)`. -/
def blendPixel (circle : Circle) (canvas_width : Int) (x y : Int) (pixels : List Nat) :
    Option (List Nat) := do
  let offset : Int := (y * canvas_width + x) * 4
  let dest_r ← readByte pixels offset
  let dest_g ← readByte pixels (offset + 1)
  let dest_b ← readByte pixels (offset + 2)
  let dest_a ← readByte pixels (offset + 3)
  let src_r := srcByte circle.r
  let src_g := srcByte circle.g
  let src_b := srcByte circle.b
  let src_a := srcByte circle.a
  let alpha := circle.a
  let pixels ← writeByte pixels offset (blendChannel alpha src_r dest_r)
  let pixels ← writeByte pixels (offset + 1) (blendChannel alpha src_g dest_g)
  let pixels ← writeByte pixels (offset + 2) (blendChannel alpha src_b dest_b)
  writeByte pixels (offset + 3) (blendChannel alpha src_a dest_a)

/-- Lines 33-62: the body of the two bounding-box loops at offsets `dy`, `dx`. -/
def loopBody (circle : Circle) (canvas_width canvas_height centerX centerY radius : Int)
    (dy dx : Int) (pixels : List Nat) : Option (List Nat) :=
  let x := wrap32 (centerX + dx)
  let y := wrap32 (centerY + dy)
  if x < 0 ∨ x ≥ canvas_width ∨ y < 0 ∨ y ≥ canvas_height then some pixels
  else if wrap32 (wrap32 (dx * dx) + wrap32 (dy * dy)) ≤ wrap32 (radius * radius) then
    blendPixel circle canvas_width x y pixels
  else some pixels

/-- Lines 25-64: one iteration of the loop over the circles. -/
def renderCircle (circle : Circle) (canvas_width canvas_height : Int) (pixels : List Nat) :
    Option (List Nat) :=
  let centerX := toInt circle.x
  let centerY := toInt circle.y
  let radius := toInt circle.radius
  (intRange (wrap32 (-radius)) radius).foldlM
    (fun px dy =>
      (intRange (wrap32 (-radius)) radius).foldlM
        (fun px dx => loopBody circle canvas_width canvas_height centerX centerY radius dy dx px)
        px)
    pixels

/-- The source's `renderCirclesSequential`: clear the canvas, then blend the first
`num_circles` circles in order.  `none` stands for an access outside `circles` or `pixels`. -/
def renderCirclesSequential (circles : List Circle) (num_circles : Int)
    (canvas_width canvas_height : Int) (pixels : List Nat) : Option (List Nat) := do
  let pixels ← fillZero pixels (canvas_width * canvas_height * 4)
  if num_circles > circles.length then none
  else
    (circles.take num_circles.toNat).foldlM
      (fun px circle => renderCircle circle canvas_width canvas_height px) pixels

/-! ## Closed form of the output

The definitions below describe the renderer's output byte by byte; the theorems that follow
prove that the loops compute exactly this. -/

/-- The column of the pixel that byte `i` of the buffer belongs to. -/
def pixelX (w : Int) (i : Nat) : Int := ((i : Int) / 4) % w

/-- The row of the pixel that byte `i` of the buffer belongs to. -/
def pixelY (w : Int) (i : Nat) : Int := ((i : Int) / 4) / w

/-- The colour component of `c` stored in byte `i`: bytes are interleaved R, G, B, A. -/
def channelOf (c : Circle) (i : Nat) : ℚ :=
  if i % 4 = 0 then c.r else if i % 4 = 1 then c.g else if i % 4 = 2 then c.b else c.a

/-- The buffer in which `c` has been blended into every byte whose pixel satisfies `S`. -/
def paintWhere (S : Int → Int → Bool) (c : Circle) (w : Int) (px : List Nat) : List Nat :=
  px.mapIdx fun i d =>
    if S (pixelX w i) (pixelY w i) then blendChannel c.a (srcByte (channelOf c i)) d else d

/-- The pixels `circle` is blended into, in the code's 32-bit arithmetic: `(x, y)` is
`(centerX + dx, centerY + dy)` for offsets `dx`, `dy` that the two bounding-box loops run
through (from `-radius` to `radius`) and that the disc test of line 40 accepts.  The offset
that leads to `x` is `x - centerX` wrapped to 32 bits. -/
def covers (circle : Circle) (x y : Int) : Bool :=
  let centerX := toInt circle.x
  let centerY := toInt circle.y
  let radius := toInt circle.radius
  let dx := wrap32 (x - centerX)
  let dy := wrap32 (y - centerY)
  decide (wrap32 (-radius) ≤ dy ∧ dy ≤ radius ∧ wrap32 (-radius) ≤ dx ∧ dx ≤ radius ∧
    wrap32 (centerX + dx) = x ∧ wrap32 (centerY + dy) = y ∧
    wrap32 (wrap32 (dx * dx) + wrap32 (dy * dy)) ≤ wrap32 (radius * radius))

/-- The buffer after blending the circles `cs`, in order, each into the pixels it covers. -/
def paintAll (cs : List Circle) (w : Int) (px : List Nat) : List Nat :=
  cs.foldl (fun px c => paintWhere (covers c) c w px) px

/-- The colour `(R, G, B, A)` stored for the pixel `(x, y)`; `none` outside the buffer. -/
def pixelAt (pixels : List Nat) (w x y : Int) : Option (Nat × Nat × Nat × Nat) := do
  let offset : Int := (y * w + x) * 4
  let r ← readByte pixels offset
  let g ← readByte pixels (offset + 1)
  let b ← readByte pixels (offset + 2)
  let a ← readByte pixels (offset + 3)
  pure (r, g, b, a)

/-- The blend of `circle` over the colour `d`, channel by channel (lines 50-61). -/
def blendColour (circle : Circle) (d : Nat × Nat × Nat × Nat) : Nat × Nat × Nat × Nat :=
  (blendChannel circle.a (srcByte circle.r) d.1,
   blendChannel circle.a (srcByte circle.g) d.2.1,
   blendChannel circle.a (srcByte circle.b) d.2.2.1,
   blendChannel circle.a (srcByte circle.a) d.2.2.2)

/-! ## Floating-point facts -/

theorem log2Fuel_spec (fuel n : Nat) (hf : n ≤ fuel) (hn : n ≠ 0) :
    2 ^ log2Fuel fuel n ≤ n ∧ n < 2 ^ (log2Fuel fuel n + 1) := by
  induction fuel generalizing n with
  | zero => omega
  | succ fuel ih =>
    unfold log2Fuel
    split_ifs with h2
    · simp; omega
    · obtain ⟨h3, h4⟩ := ih (n / 2) (by omega) (by omega)
      rw [pow_succ] at h4 ⊢
      rw [pow_succ]
      constructor <;> omega

theorem natLog2_spec (n : Nat) (hn : n ≠ 0) :
    2 ^ natLog2 n ≤ n ∧ n < 2 ^ (natLog2 n + 1) :=
  log2Fuel_spec n n le_rfl hn

/-- The exponent computed by `floorLog2` is the integer logarithm `⌊log₂ q⌋`. -/
theorem floorLog2_eq_log (q : ℚ) (hq : 0 < q) : floorLog2 q = Int.log 2 q := by
  have hnum : 0 < q.num := Rat.num_pos.mpr hq
  have hn0 : q.num.natAbs ≠ 0 := by omega
  have hd0 : q.den ≠ 0 := q.den_nz
  have hqv : ((q.num.natAbs : ℕ) : ℚ) / (q.den : ℚ) = q := by
    rw [Nat.cast_natAbs, abs_of_pos hnum]; exact Rat.num_div_den q
  unfold floorLog2
  simp only
  obtain ⟨ha1, ha2⟩ := natLog2_spec _ hn0
  obtain ⟨hb1, hb2⟩ := natLog2_spec _ hd0
  generalize natLog2 q.num.natAbs = a at ha1 ha2
  generalize natLog2 q.den = b at hb1 hb2
  generalize q.num.natAbs = n at hqv ha1 ha2 hn0
  generalize q.den = d at hqv hb1 hb2 hd0
  have hdpos : (0 : ℚ) < d := by exact_mod_cast Nat.pos_of_ne_zero hd0
  have ha1' : (2 : ℚ) ^ a ≤ n := by exact_mod_cast ha1
  have ha2' : (n : ℚ) < 2 ^ (a + 1) := by exact_mod_cast ha2
  have hb1' : (2 : ℚ) ^ b ≤ d := by exact_mod_cast hb1
  have hb2' : (d : ℚ) < 2 ^ (b + 1) := by exact_mod_cast hb2
  have two_pos : (0 : ℚ) < 2 := by norm_num
  have two_ne : (2 : ℚ) ≠ 0 := by norm_num
  -- q lies strictly between 2 ^ (a - b - 1) and 2 ^ (a - b + 1)
  have hlow : (2 : ℚ) ^ ((a : ℤ) - b - 1) < q := by
    rw [← hqv, lt_div_iff₀ hdpos]
    have e : (2 : ℚ) ^ ((a : ℤ) - b - 1) = 2 ^ a / 2 ^ (b + 1) := by
      rw [show (a : ℤ) - b - 1 = (a : ℤ) - ((b + 1 : ℕ) : ℤ) by push_cast; ring,
        zpow_sub₀ two_ne, zpow_natCast, zpow_natCast]
    rw [e, div_mul_eq_mul_div, div_lt_iff₀ (by positivity)]
    calc (2 : ℚ) ^ a * d < 2 ^ a * 2 ^ (b + 1) := by
          apply mul_lt_mul_of_pos_left hb2' (by positivity)
      _ ≤ n * 2 ^ (b + 1) := by
          apply mul_le_mul_of_nonneg_right ha1' (by positivity)
  have hhigh : q < (2 : ℚ) ^ ((a : ℤ) - b + 1) := by
    rw [← hqv, div_lt_iff₀ hdpos]
    have e : (2 : ℚ) ^ ((a : ℤ) - b + 1) = 2 ^ (a + 1) / 2 ^ b := by
      rw [show (a : ℤ) - b + 1 = ((a + 1 : ℕ) : ℤ) - (b : ℤ) by push_cast; ring,
        zpow_sub₀ two_ne, zpow_natCast, zpow_natCast]
    rw [e, div_mul_eq_mul_div, lt_div_iff₀ (by positivity)]
    calc (n : ℚ) * 2 ^ b < 2 ^ (a + 1) * 2 ^ b := by
          apply mul_lt_mul_of_pos_right ha2' (by positivity)
      _ ≤ 2 ^ (a + 1) * d := by
          apply mul_le_mul_of_nonneg_left hb1' (by positivity)
  have key : ∀ k : ℤ, (2 : ℚ) ^ k ≤ q → q < 2 ^ (k + 1) → k = Int.log 2 q := by
    intro k h1 h2
    have h1' : k ≤ Int.log 2 q := by
      have := (Int.zpow_le_iff_le_log (b := 2) (by norm_num) (x := k) hq).mp
      exact this (by simpa using h1)
    have h2' : Int.log 2 q < k + 1 := by
      have := (Int.lt_zpow_iff_log_lt (b := 2) (by norm_num) (x := k + 1) hq).mp
      exact this (by simpa using h2)
    omega
  split_ifs with hc
  · exact key _ hc hhigh
  · apply key
    · exact hlow.le
    · rw [sub_add_cancel]; exact lt_of_not_le hc

/-- Sample roundings: 1/3 and 1/10 to their binary32 neighbours, a tie to the even
significand, the least subnormal, and a value that is exact. -/
theorem f32round_samples :
    f32round (1 / 3) = 11184811 / 33554432 ∧
    f32round (1 / 10) = 13421773 / 134217728 ∧
    f32round 16777217 = 16777216 ∧
    f32round 16777219 = 16777220 ∧
    f32round ((2 : ℚ) ^ (-150 : ℤ) * 3) = (2 : ℚ) ^ (-149 : ℤ) * 2 ∧
    f32round (255 / 2) = 255 / 2 := by
  decide!

theorem wrap32_of_fits {z : Int} (h1 : -2147483648 ≤ z) (h2 : z ≤ 2147483647) :
    wrap32 z = z := by
  unfold wrap32
  omega

theorem wrap32_range (z : Int) : -2147483648 ≤ wrap32 z ∧ wrap32 z ≤ 2147483647 := by
  unfold wrap32
  omega

theorem toInt_range (f : ℚ) : -2147483648 ≤ toInt f ∧ toInt f ≤ 2147483647 := by
  unfold toInt
  split_ifs with h
  · exact h
  · constructor <;> norm_num

theorem toInt_of_fits {f : ℚ} (h1 : -2147483648 ≤ truncate f) (h2 : truncate f ≤ 2147483647) :
    toInt f = truncate f := by
  simp only [toInt, h1, h2, and_self, if_true]

theorem toUChar_lt (f : ℚ) : toUChar f < 256 := by
  unfold toUChar
  omega

theorem srcByte_lt (ch : ℚ) : srcByte ch < 256 := toUChar_lt _

theorem f32round_zero : f32round 0 = 0 := by simp [f32round]

theorem offset_bounds {w h x y : Int} (hx0 : 0 ≤ x) (hxw : x < w) (hy0 : 0 ≤ y) (hyh : y < h) :
    0 ≤ (y * w + x) * 4 ∧ (y * w + x) * 4 + 3 < w * h * 4 := by
  have hw : 0 ≤ w := by omega
  have h1 : 0 ≤ y * w := mul_nonneg hy0 hw
  have h2 : (y + 1) * w ≤ h * w := mul_le_mul_of_nonneg_right (by omega) hw
  have h3 : (y + 1) * w = y * w + w := by ring
  have h4 : w * h = h * w := mul_comm w h
  constructor <;> omega

theorem pixel_coords {w x y : Int} (i : Nat) (hx0 : 0 ≤ x) (hxw : x < w) :
    (pixelX w i = x ∧ pixelY w i = y) ↔ (i : Int) / 4 = y * w + x := by
  have hw : 0 < w := by omega
  unfold pixelX pixelY
  rw [and_comm, Int.ediv_emod_unique hw]
  constructor
  · rintro ⟨h1, -, -⟩
    rw [← h1]; ring
  · intro h1
    exact ⟨by rw [h1]; ring, hx0, hxw⟩

theorem length_paintWhere (S : Int → Int → Bool) (c : Circle) (w : Int) (px : List Nat) :
    (paintWhere S c w px).length = px.length := by
  simp [paintWhere]

theorem blendPixel_eq (c : Circle) {w h x y : Int} (px : List Nat)
    (hx0 : 0 ≤ x) (hxw : x < w) (hy0 : 0 ≤ y) (hyh : y < h)
    (hlen : (px.length : Int) = w * h * 4) :
    blendPixel c w x y px = some (paintWhere (fun x1 y1 => decide (x1 = x ∧ y1 = y)) c w px) := by
  obtain ⟨ho0, ho3⟩ := offset_bounds hx0 hxw hy0 hyh
  have hpc := fun i : Nat => pixel_coords (y := y) i hx0 hxw
  generalize hP : y * w + x = P at ho0 ho3 hpc
  obtain ⟨o, rfl⟩ : ∃ o : Nat, P = (o : Int) := ⟨P.toNat, by omega⟩
  have hl : 4 * o + 3 < px.length := by omega
  have e0 : ((o : Int) * 4).toNat = 4 * o := by omega
  have e1 : ((o : Int) * 4 + 1).toNat = 4 * o + 1 := by omega
  have e2 : ((o : Int) * 4 + 2).toNat = 4 * o + 2 := by omega
  have e3 : ((o : Int) * 4 + 3).toNat = 4 * o + 3 := by omega
  have p0 : (0 : Int) ≤ (o : Int) * 4 := by omega
  have p1 : (0 : Int) ≤ (o : Int) * 4 + 1 := by omega
  have p2 : (0 : Int) ≤ (o : Int) * 4 + 2 := by omega
  have p3 : (0 : Int) ≤ (o : Int) * 4 + 3 := by omega
  have g0 : px[4 * o]? = some px[4 * o] := List.getElem?_eq_getElem (by omega)
  have g1 : px[4 * o + 1]? = some px[4 * o + 1] := List.getElem?_eq_getElem (by omega)
  have g2 : px[4 * o + 2]? = some px[4 * o + 2] := List.getElem?_eq_getElem (by omega)
  have g3 : px[4 * o + 3]? = some px[4 * o + 3] := List.getElem?_eq_getElem (by omega)
  simp only [blendPixel, hP, readByte, writeByte, p0, p1, p2, p3, e0, e1, e2, e3, g0, g1, g2, g3,
    if_true, Option.bind_eq_bind, Option.some_bind, List.length_set, true_and]
  have l0 : 4 * o < px.length := by omega
  have l1 : 4 * o + 1 < px.length := by omega
  have l2 : 4 * o + 2 < px.length := by omega
  simp only [l0, l1, l2, hl, if_true, Option.some_bind, List.length_set, Option.some.injEq]
  apply List.ext_getElem?
  intro i
  simp only [paintWhere, List.getElem?_mapIdx, List.getElem?_set, List.length_set, l0, l1, l2, hl,
    if_true, decide_eq_true_eq, hpc, channelOf]
  by_cases hi : i < px.length
  · rw [List.getElem?_eq_getElem hi]
    have hcases : i = 4 * o ∨ i = 4 * o + 1 ∨ i = 4 * o + 2 ∨ i = 4 * o + 3 ∨
        ¬ (i : Int) / 4 = (o : Int) := by omega
    rcases hcases with c0 | c0 | c0 | c0 | c0
    · subst c0
      have m : (4 * o) % 4 = 0 := by omega
      have d : ((4 * o : Nat) : Int) / 4 = o := by omega
      simp [m, d]
    · subst c0
      have m : (4 * o + 1) % 4 = 1 := by omega
      have d : (4 * (o : Int) + 1) / 4 = o := by omega
      simp [m, d]
    · subst c0
      have m : (4 * o + 2) % 4 = 2 := by omega
      have d : (4 * (o : Int) + 2) / 4 = o := by omega
      simp [m, d]
    · subst c0
      have m : (4 * o + 3) % 4 = 3 := by omega
      have d : (4 * (o : Int) + 3) / 4 = o := by omega
      simp [m, d]
    · have n0 : ¬ 4 * o = i := by omega
      have n1 : ¬ 4 * o + 1 = i := by omega
      have n2 : ¬ 4 * o + 2 = i := by omega
      have n3 : ¬ 4 * o + 3 = i := by omega
      simp [n0, n1, n2, n3, c0]
  · rw [List.getElem?_eq_none (by omega)]
    have n0 : ¬ 4 * o = i := by omega
    have n1 : ¬ 4 * o + 1 = i := by omega
    have n2 : ¬ 4 * o + 2 = i := by omega
    have n3 : ¬ 4 * o + 3 = i := by omega
    simp [n0, n1, n2, n3]

theorem mem_intRange {lo hi v : Int} : v ∈ intRange lo hi ↔ lo ≤ v ∧ v ≤ hi := by
  simp only [intRange, List.mem_map, List.mem_range]
  constructor
  · rintro ⟨k, hk, rfl⟩
    omega
  · intro hv
    exact ⟨(v - lo).toNat, by omega, by omega⟩

theorem nodup_intRange (lo hi : Int) : (intRange lo hi).Nodup := by
  unfold intRange
  apply List.Nodup.map _ (List.nodup_range _)
  intro a b hab
  simp only at hab
  omega

theorem pixel_in_bounds {w h : Int} {i n : Nat} (hw : 0 ≤ w) (hn : (n : Int) = w * h * 4)
    (hi : i < n) :
    0 ≤ pixelX w i ∧ pixelX w i < w ∧ 0 ≤ pixelY w i ∧ pixelY w i < h := by
  have hwpos : 0 < w := by
    rcases hw.lt_or_eq with h1 | h1
    · exact h1
    · rw [← h1] at hn; simp at hn; omega
  have hq : (i : Int) / 4 < w * h := by omega
  have hq0 : 0 ≤ (i : Int) / 4 := by omega
  unfold pixelX pixelY
  refine ⟨Int.emod_nonneg _ hwpos.ne', Int.emod_lt_of_pos _ hwpos, Int.ediv_nonneg hq0 hw, ?_⟩
  apply Int.ediv_lt_of_lt_mul hwpos
  rw [mul_comm]; exact hq

theorem paintWhere_congr {S S' : Int → Int → Bool} (c : Circle) {w h : Int} (px : List Nat)
    (hw : 0 ≤ w) (hlen : (px.length : Int) = w * h * 4)
    (hS : ∀ x y, 0 ≤ x → x < w → 0 ≤ y → y < h → S x y = S' x y) :
    paintWhere S c w px = paintWhere S' c w px := by
  apply List.ext_getElem?
  intro i
  simp only [paintWhere, List.getElem?_mapIdx]
  by_cases hi : i < px.length
  · obtain ⟨h1, h2, h3, h4⟩ := pixel_in_bounds hw hlen hi
    rw [hS _ _ h1 h2 h3 h4]
  · rw [List.getElem?_eq_none (by omega)]; rfl

theorem paintWhere_false (c : Circle) (w : Int) (px : List Nat) :
    paintWhere (fun _ _ => false) c w px = px := by
  apply List.ext_getElem?
  intro i
  simp [paintWhere, List.getElem?_mapIdx]

theorem paintWhere_comp {S1 S2 : Int → Int → Bool} (c : Circle) (w : Int) (px : List Nat)
    (hd : ∀ x y, S1 x y = true → S2 x y = false) :
    paintWhere S2 c w (paintWhere S1 c w px) = paintWhere (fun x y => S1 x y || S2 x y) c w px := by
  apply List.ext_getElem?
  intro i
  simp only [paintWhere, List.getElem?_mapIdx, Option.map_map]
  congr 1
  funext d
  simp only [Function.comp]
  by_cases h1 : S1 (pixelX w i) (pixelY w i) = true
  · simp [h1, hd _ _ h1]
  · simp [h1]

theorem foldlM_paint {α : Type} (c : Circle) (w h : Int) (f : List Nat → α → Option (List Nat))
    (S : α → Int → Int → Bool) (L : List α)
    (hf : ∀ a ∈ L, ∀ px : List Nat, (px.length : Int) = w * h * 4 →
      f px a = some (paintWhere (S a) c w px))
    (hd : L.Pairwise (fun a b => ∀ x y, S a x y = true → S b x y = false))
    (px : List Nat) (hlen : (px.length : Int) = w * h * 4) :
    L.foldlM f px = some (paintWhere (fun x y => L.any (fun a => S a x y)) c w px) := by
  induction L generalizing px with
  | nil => simp [paintWhere_false]
  | cons a L ih =>
    rw [List.pairwise_cons] at hd
    rw [List.foldlM_cons, hf a (List.mem_cons_self _ _) px hlen]
    simp only [Option.bind_eq_bind, Option.some_bind]
    rw [ih (fun b hb => hf b (List.mem_cons_of_mem _ hb)) hd.2 _
      (by rw [length_paintWhere]; exact hlen)]
    rw [paintWhere_comp]
    · simp
    · intro x y hxy
      simp only [List.any_eq_false]
      intro b hb
      simp [hd.1 b hb x y hxy]

theorem loopBody_eq (c : Circle) {w h : Int} (cx cy R dy dx : Int) (px : List Nat)
    (hw : 0 ≤ w) (hlen : (px.length : Int) = w * h * 4) :
    loopBody c w h cx cy R dy dx px =
      some (paintWhere (fun x y =>
        decide (wrap32 (cx + dx) = x ∧ wrap32 (cy + dy) = y ∧
          wrap32 (wrap32 (dx * dx) + wrap32 (dy * dy)) ≤ wrap32 (R * R))) c w px) := by
  unfold loopBody
  simp only
  generalize wrap32 (cx + dx) = x0
  generalize wrap32 (cy + dy) = y0
  split_ifs with hb hd
  · refine congrArg some ((paintWhere_false c w px).symm.trans ?_)
    apply paintWhere_congr c px hw hlen
    intro x y hx0 hxw hy0 hyh
    symm
    simp only [decide_eq_false_iff_not]
    omega
  · rw [blendPixel_eq c px (by omega) (by omega) (by omega) (by omega) hlen]
    congr 1
    apply paintWhere_congr c _ hw hlen
    intro x y _ _ _ _
    simp only [hd, and_true, decide_eq_decide]
    constructor
    · rintro ⟨h1, h2⟩
      exact ⟨h1.symm, h2.symm⟩
    · rintro ⟨h1, h2⟩
      exact ⟨h1.symm, h2.symm⟩
  · refine congrArg some ((paintWhere_false c w px).symm.trans ?_)
    apply paintWhere_congr c px hw hlen
    intro x y _ _ _ _
    simp [hd]

/-- An offset inside an `int` range is determined by the pixel coordinate it leads to. -/
theorem offset_unique {cx d x lo hi : Int} (hlo : -2147483648 ≤ lo) (hhi : hi ≤ 2147483647)
    (h1 : lo ≤ d) (h2 : d ≤ hi) (hx : wrap32 (cx + d) = x) : d = wrap32 (x - cx) := by
  unfold wrap32 at hx ⊢
  omega

theorem renderCircle_eq (c : Circle) {w h : Int} (px : List Nat)
    (hw : 0 ≤ w) (hlen : (px.length : Int) = w * h * 4) :
    renderCircle c w h px = some (paintWhere (covers c) c w px) := by
  unfold renderCircle
  simp only
  have hRhi := (toInt_range c.radius).2
  generalize hcx : toInt c.x = cx
  generalize hcy : toInt c.y = cy
  generalize hR : toInt c.radius = R at hRhi
  have hlo := (wrap32_range (-R)).1
  generalize hL : wrap32 (-R) = lo at hlo
  have inner : ∀ dy : Int, ∀ px : List Nat, (px.length : Int) = w * h * 4 →
      (intRange lo R).foldlM (fun px dx => loopBody c w h cx cy R dy dx px) px =
        some (paintWhere (fun x y => decide (wrap32 (cy + dy) = y ∧
          lo ≤ wrap32 (x - cx) ∧ wrap32 (x - cx) ≤ R ∧ wrap32 (cx + wrap32 (x - cx)) = x ∧
          wrap32 (wrap32 (wrap32 (x - cx) * wrap32 (x - cx)) + wrap32 (dy * dy)) ≤
            wrap32 (R * R))) c w px) := by
    intro dy px hlen
    rw [foldlM_paint c w h _ (fun dx x y =>
        decide (wrap32 (cx + dx) = x ∧ wrap32 (cy + dy) = y ∧
          wrap32 (wrap32 (dx * dx) + wrap32 (dy * dy)) ≤ wrap32 (R * R))) _
        (fun dx _ px hl => loopBody_eq c cx cy R dy dx px hw hl) _ px hlen]
    · congr 2
      funext x y
      rw [Bool.eq_iff_iff]
      simp only [List.any_eq_true, mem_intRange, decide_eq_true_eq]
      constructor
      · rintro ⟨dx, ⟨h1, h2⟩, h3, h4, h5⟩
        have hdx := offset_unique hlo hRhi h1 h2 h3
        subst hdx
        exact ⟨h4, h1, h2, h3, h5⟩
      · rintro ⟨h4, h1, h2, h3, h5⟩
        exact ⟨wrap32 (x - cx), ⟨h1, h2⟩, h3, h4, h5⟩
    · apply (nodup_intRange lo R).imp_of_mem
      intro a b ha hb hab x y
      rw [mem_intRange] at ha hb
      simp only [decide_eq_true_eq, decide_eq_false_iff_not]
      rintro ⟨h1, -, -⟩ ⟨h2, -, -⟩
      exact hab ((offset_unique hlo hRhi ha.1 ha.2 h1).trans
        (offset_unique hlo hRhi hb.1 hb.2 h2).symm)
  rw [foldlM_paint c w h _ (fun dy x y => decide (wrap32 (cy + dy) = y ∧
        lo ≤ wrap32 (x - cx) ∧ wrap32 (x - cx) ≤ R ∧ wrap32 (cx + wrap32 (x - cx)) = x ∧
        wrap32 (wrap32 (wrap32 (x - cx) * wrap32 (x - cx)) + wrap32 (dy * dy)) ≤
          wrap32 (R * R))) _
      (fun dy _ px hl => inner dy px hl) _ px hlen]
  · congr 2
    funext x y
    rw [Bool.eq_iff_iff]
    simp only [covers, hR, hcx, hcy, hL, List.any_eq_true, mem_intRange, decide_eq_true_eq]
    constructor
    · rintro ⟨dy, ⟨h1, h2⟩, h3, h4, h5, h6, h7⟩
      have hdy := offset_unique hlo hRhi h1 h2 h3
      subst hdy
      exact ⟨h1, h2, h4, h5, h6, h3, h7⟩
    · rintro ⟨h1, h2, h4, h5, h6, h3, h7⟩
      exact ⟨wrap32 (y - cy), ⟨h1, h2⟩, h3, h4, h5, h6, h7⟩
  · apply (nodup_intRange lo R).imp_of_mem
    intro a b ha hb hab x y
    rw [mem_intRange] at ha hb
    simp only [decide_eq_true_eq, decide_eq_false_iff_not]
    rintro ⟨h1, -⟩ ⟨h2, -⟩
    exact hab ((offset_unique hlo hRhi ha.1 ha.2 h1).trans
      (offset_unique hlo hRhi hb.1 hb.2 h2).symm)

theorem length_paintAll (cs : List Circle) (w : Int) (px : List Nat) :
    (paintAll cs w px).length = px.length := by
  induction cs generalizing px with
  | nil => rfl
  | cons c cs ih => simp [paintAll, List.foldl_cons] at ih ⊢; rw [ih, length_paintWhere]

theorem foldlM_renderCircle (cs : List Circle) {w h : Int} (px : List Nat)
    (hw : 0 ≤ w) (hlen : (px.length : Int) = w * h * 4) :
    cs.foldlM (fun px c => renderCircle c w h px) px = some (paintAll cs w px) := by
  induction cs generalizing px with
  | nil => rfl
  | cons c cs ih =>
    rw [List.foldlM_cons, renderCircle_eq c px hw hlen]
    simp only [Option.bind_eq_bind, Option.some_bind]
    rw [ih _ (by rw [length_paintWhere]; exact hlen)]
    rfl

theorem fillZero_eq {n : Int} (px : List Nat) (hlen : (px.length : Int) = n) :
    fillZero px n = some (List.replicate px.length 0) := by
  have h1 : n.toNat = px.length := by omega
  simp [fillZero, h1, ← hlen]

theorem renderCirclesSequential_eq (circles : List Circle) {num_circles w h : Int}
    (px : List Nat) (hw : 0 ≤ w) (hlen : (px.length : Int) = w * h * 4)
    (hn : num_circles ≤ circles.length) :
    renderCirclesSequential circles num_circles w h px =
      some (paintAll (circles.take num_circles.toNat) w (List.replicate px.length 0)) := by
  unfold renderCirclesSequential
  rw [fillZero_eq px hlen]
  simp only [Option.bind_eq_bind, Option.some_bind, gt_iff_lt, not_lt.mpr hn, if_false]
  exact foldlM_renderCircle _ _ hw (by simpa using hlen)

theorem pixelAt_paintWhere (S : Int → Int → Bool) (c : Circle) {w h x y : Int} (px : List Nat)
    (hx0 : 0 ≤ x) (hxw : x < w) (hy0 : 0 ≤ y) (hyh : y < h)
    (hlen : (px.length : Int) = w * h * 4) :
    pixelAt (paintWhere S c w px) w x y =
      (pixelAt px w x y).map (fun d => if S x y then blendColour c d else d) := by
  obtain ⟨ho0, ho3⟩ := offset_bounds hx0 hxw hy0 hyh
  have hpc := fun i : Nat => (pixel_coords (y := y) i hx0 hxw).mpr
  generalize hP : y * w + x = P at ho0 ho3 hpc
  obtain ⟨o, rfl⟩ : ∃ o : Nat, P = (o : Int) := ⟨P.toNat, by omega⟩
  have hl : 4 * o + 3 < px.length := by omega
  have e0 : ((o : Int) * 4).toNat = 4 * o := by omega
  have e1 : ((o : Int) * 4 + 1).toNat = 4 * o + 1 := by omega
  have e2 : ((o : Int) * 4 + 2).toNat = 4 * o + 2 := by omega
  have e3 : ((o : Int) * 4 + 3).toNat = 4 * o + 3 := by omega
  have p0 : (0 : Int) ≤ (o : Int) * 4 := by omega
  have p1 : (0 : Int) ≤ (o : Int) * 4 + 1 := by omega
  have p2 : (0 : Int) ≤ (o : Int) * 4 + 2 := by omega
  have p3 : (0 : Int) ≤ (o : Int) * 4 + 3 := by omega
  have g0 : px[4 * o]? = some px[4 * o] := List.getElem?_eq_getElem (by omega)
  have g1 : px[4 * o + 1]? = some px[4 * o + 1] := List.getElem?_eq_getElem (by omega)
  have g2 : px[4 * o + 2]? = some px[4 * o + 2] := List.getElem?_eq_getElem (by omega)
  have g3 : px[4 * o + 3]? = some px[4 * o + 3] := List.getElem?_eq_getElem (by omega)
  obtain ⟨x0, y0⟩ := hpc (4 * o) (by omega)
  obtain ⟨x1, y1⟩ := hpc (4 * o + 1) (by omega)
  obtain ⟨x2, y2⟩ := hpc (4 * o + 2) (by omega)
  obtain ⟨x3, y3⟩ := hpc (4 * o + 3) (by omega)
  have m0 : (4 * o) % 4 = 0 := by omega
  have m1 : (4 * o + 1) % 4 = 1 := by omega
  have m2 : (4 * o + 2) % 4 = 2 := by omega
  have m3 : (4 * o + 3) % 4 = 3 := by omega
  simp only [pixelAt, hP, readByte, p0, p1, p2, p3, e0, e1, e2, e3, g0, g1, g2, g3, if_true,
    Option.bind_eq_bind, Option.some_bind, paintWhere, List.getElem?_mapIdx, Option.map_some',
    x0, y0, x1, y1, x2, y2, x3, y3, channelOf, m0, m1, m2, m3, Option.pure_def, blendColour]
  by_cases hS : S x y = true <;> simp [hS]

theorem pixelAt_paintAll (cs : List Circle) {w h x y : Int} (px : List Nat)
    (hx0 : 0 ≤ x) (hxw : x < w) (hy0 : 0 ≤ y) (hyh : y < h)
    (hlen : (px.length : Int) = w * h * 4) :
    pixelAt (paintAll cs w px) w x y =
      (pixelAt px w x y).map
        (fun d => ((cs.filter (fun c => covers c x y)).foldl (fun d c => blendColour c d) d)) := by
  induction cs generalizing px with
  | nil => simp [paintAll]
  | cons c cs ih =>
    have h1 := ih (paintWhere (covers c) c w px) (by rw [length_paintWhere]; exact hlen)
    rw [paintAll, List.foldl_cons]
    rw [paintAll] at h1
    rw [h1, pixelAt_paintWhere _ c px hx0 hxw hy0 hyh hlen, Option.map_map]
    congr 1
    funext d
    by_cases hc : covers c x y = true <;> simp [hc, List.filter_cons]

theorem pixelAt_zero {w h x y : Int} (n : Nat)
    (hx0 : 0 ≤ x) (hxw : x < w) (hy0 : 0 ≤ y) (hyh : y < h) (hlen : (n : Int) = w * h * 4) :
    pixelAt (List.replicate n 0) w x y = some (0, 0, 0, 0) := by
  obtain ⟨ho0, ho3⟩ := offset_bounds hx0 hxw hy0 hyh
  have h0 : ((y * w + x) * 4).toNat < n := by omega
  have h1 : ((y * w + x) * 4 + 1).toNat < n := by omega
  have h2 : ((y * w + x) * 4 + 2).toNat < n := by omega
  have h3 : ((y * w + x) * 4 + 3).toNat < n := by omega
  have p1 : 0 ≤ (y * w + x) * 4 + 1 := by omega
  have p2 : 0 ≤ (y * w + x) * 4 + 2 := by omega
  have p3 : 0 ≤ (y * w + x) * 4 + 3 := by omega
  simp [pixelAt, readByte, ho0, p1, p2, p3, List.getElem?_replicate, h0, h1, h2, h3]


/-! ## The footprint where no `int` operation overflows -/

theorem truncate_zero : truncate 0 = 0 := by simp [truncate]

theorem truncate_nonneg {f : ℚ} (hf : 0 ≤ f) : 0 ≤ truncate f := by
  simp only [truncate, hf, if_true]
  exact Int.floor_nonneg.mpr hf

theorem truncate_lt_of_lt {f : ℚ} {n : ℤ} (hf0 : 0 ≤ f) (hf : f < n) : truncate f < n := by
  simp only [truncate, hf0, if_true]
  exact Int.floor_lt.mpr hf

theorem truncate_neg_of_le {f : ℚ} (hf : f ≤ -1) : truncate f ≤ -1 := by
  have h0 : ¬ (0 ≤ f) := by linarith
  simp only [truncate, h0, if_false]
  have h1 : (1 : ℤ) ≤ ⌊-f⌋ := Int.le_floor.mpr (by push_cast; linarith)
  omega

theorem toInt_neg_of_le {f : ℚ} (hf : f ≤ -1) : toInt f ≤ -1 := by
  have := truncate_neg_of_le hf
  unfold toInt
  split_ifs <;> omega

/-- C2: on a 10x10 canvas cleared to zero, rendering the single circle with centre `(5, 5)`,
radius 2 and colour `(1, 1, 1, 1)` succeeds, and in the resulting buffer (of 400 bytes) every
pixel `(x, y)` with `(x-5)² + (y-5)² ≤ 4` is `(255, 255, 255, 255)` and every other pixel is
`(0, 0, 0, 0)`. -/
theorem C2_opaque_white_disc_on_10x10 :
    ∃ out, renderCirclesSequential [⟨5, 5, 2, 1, 1, 1, 1⟩] 1 10 10 (List.replicate 400 0) =
        some out ∧
      out.length = 400 ∧
      ∀ x y : Fin 10, pixelAt out 10 (x : Int) (y : Int) =
        some (if ((x : Int) - 5) ^ 2 + ((y : Int) - 5) ^ 2 ≤ 4 then (255, 255, 255, 255)
          else (0, 0, 0, 0)) := by
  have hlen : (((List.replicate 400 0 : List Nat).length : Nat) : Int) = 10 * 10 * 4 := by
    rw [List.length_replicate]; norm_num
  refine ⟨_, renderCirclesSequential_eq _ _ (by decide) hlen (by decide), ?_, ?_⟩
  · rw [length_paintAll, List.length_replicate, List.length_replicate]
  · intro x y
    have hx := x.isLt
    have hy := y.isLt
    rw [List.length_replicate,
      pixelAt_paintAll (h := 10) _ _ (by omega) (by omega) (by omega) (by omega)
        (by rw [List.length_replicate]; norm_num),
      pixelAt_zero (h := 10) _ (by omega) (by omega) (by omega) (by omega) (by norm_num)]
    simp only [Option.map_some', Option.some.injEq]
    revert x y
    decide!

/-- C4, counterexample: on the 1x1 canvas pre-set to `(100, 100, 100, 100)`, the circle with
centre `(0, 0)`, radius 1, `r = 1, g = 0, b = 0` and alpha 0.5 leaves `(127, 0, 0, 63)`, not
`(177, 50, 50, 177)`; with radius 46341, whose square does not fit an `int`, it leaves
`(0, 0, 0, 0)`. -/
theorem C4_counterexample_blend_scenario :
    renderCirclesSequential [⟨0, 0, 1, 1, 0, 0, 1 / 2⟩] 1 1 1 [100, 100, 100, 100] =
      some [127, 0, 0, 63] ∧
    pixelAt [127, 0, 0, 63] 1 0 0 ≠ some (177, 50, 50, 177) ∧
    renderCirclesSequential [⟨0, 0, 46341, 1, 0, 0, 1 / 2⟩] 1 1 1 [100, 100, 100, 100] =
      some [0, 0, 0, 0] := by
  refine ⟨by decide!, by decide!, ?_⟩
  rw [renderCirclesSequential_eq _ _ (by decide) (by decide) (by decide)]
  decide!

/-- C4 (as amended): on a 1x1 canvas whose buffer is pre-set to `(100, 100, 100, 100)`,
rendering one circle with centre `(0, 0)`, any radius with `0 ≤ radius < 46341` (so that the
square of its truncation fits an `int`), `r = 1, g = 0, b = 0` and alpha 0.5 leaves the pixel
equal to `(127, 0, 0, 63)`: the buffer is cleared first, and the blend over the cleared pixel
is `trunc(0.5 * 255) = 127`, `0`, `0`, `trunc(0.5 * 127) = 63`, the alpha channel's source
byte being `trunc(0.5 * 255) = 127`.  The blend step alone, applied to
`(100, 100, 100, 100)`, gives `(177, 50, 50, 113)`. -/
theorem C4_half_alpha_red_on_1x1 (radius : ℚ) (hr : 0 ≤ radius) (hr2 : radius < 46341) :
    renderCirclesSequential [⟨0, 0, radius, 1, 0, 0, 1 / 2⟩] 1 1 1 [100, 100, 100, 100] =
      some [127, 0, 0, 63] ∧
    blendColour ⟨0, 0, radius, 1, 0, 0, 1 / 2⟩ (100, 100, 100, 100) = (177, 50, 50, 113) := by
  constructor
  · rw [renderCirclesSequential_eq _ _ (by decide) (by decide) (by simp)]
    have hcov : paintWhere (covers ⟨0, 0, radius, 1, 0, 0, 1 / 2⟩) ⟨0, 0, radius, 1, 0, 0, 1 / 2⟩ 1
        (List.replicate 4 0) =
        paintWhere (fun _ _ => true) ⟨0, 0, radius, 1, 0, 0, 1 / 2⟩ 1 (List.replicate 4 0) := by
      apply paintWhere_congr (h := 1) _ _ (by decide) (by decide)
      intro x y hx0 hx1 hy0 hy1
      have hx : x = 0 := by omega
      have hy : y = 0 := by omega
      have hT0 := truncate_nonneg hr
      have hT1 : truncate radius < 46341 := truncate_lt_of_lt hr (by exact_mod_cast hr2)
      have hR : toInt radius = truncate radius := toInt_of_fits (by omega) (by omega)
      have h0 : toInt 0 = 0 := by decide!
      subst hx hy
      simp only [covers, h0, hR, decide_eq_true_eq, sub_self, zero_add, mul_zero, add_zero]
      generalize truncate radius = R at hT0 hT1
      have hRR0 : 0 ≤ R * R := mul_self_nonneg R
      have hRR1 : R * R ≤ 2147395600 := by nlinarith
      have w0 : wrap32 0 = 0 := by decide
      rw [w0, w0, wrap32_of_fits (z := -R) (by omega) (by omega),
        wrap32_of_fits (z := R * R) (by omega) (by omega)]
      have w3 : wrap32 (wrap32 (0 * 0) + wrap32 (0 * 0)) = 0 := by decide
      rw [w3]
      omega
    have hval : paintWhere (fun _ _ => true) ⟨0, 0, radius, 1, 0, 0, 1 / 2⟩ 1 (List.replicate 4 0) =
        paintWhere (fun _ _ => true) ⟨0, 0, 0, 1, 0, 0, 1 / 2⟩ 1 (List.replicate 4 0) := rfl
    have hnum : paintWhere (fun _ _ => true) ⟨0, 0, 0, 1, 0, 0, 1 / 2⟩ 1 (List.replicate 4 0) =
        [127, 0, 0, 63] := by decide!
    show some (paintAll _ _ _) = _
    simp only [paintAll, Int.toNat_one, List.take_succ_cons, List.take_zero, List.foldl_cons,
      List.foldl_nil, List.length_cons, List.length_nil]
    rw [hcov, hval, hnum]
  · have h : blendColour ⟨0, 0, radius, 1, 0, 0, 1 / 2⟩ (100, 100, 100, 100) =
        blendColour ⟨0, 0, 0, 1, 0, 0, 1 / 2⟩ (100, 100, 100, 100) := rfl
    rw [h]
    decide!

/-- C4, witness: the scenario with radius 3. -/
theorem C4_half_alpha_red_witness :
    (0 : ℚ) ≤ 3 ∧ (3 : ℚ) < 46341 ∧
    renderCirclesSequential [⟨0, 0, 3, 1, 0, 0, 1 / 2⟩] 1 1 1 [100, 100, 100, 100] =
      some [127, 0, 0, 63] ∧
    blendColour ⟨0, 0, 3, 1, 0, 0, 1 / 2⟩ (100, 100, 100, 100) = (177, 50, 50, 113) :=
  ⟨by norm_num, by norm_num, C4_half_alpha_red_on_1x1 3 (by norm_num) (by norm_num)⟩



/-- C10: for every `width, height ≥ 0`, every buffer of length `width * height * 4` and every
circle list with `num_circles` at most its length, `renderCirclesSequential` returns a buffer,
so none of its reads and writes left `[0, width * height * 4)`, and the returned buffer has the
length of the one passed in; a pixel that passed the check `0 ≤ x < width`, `0 ≤ y < height`
has `0 ≤ offset` and `offset + 3 < width * height * 4` for `offset = (y * width + x) * 4`. -/
theorem C10_index_safety (circles : List Circle) (num_circles w h : Int) (pixels : List Nat)
    (hw : 0 ≤ w) (_hh : 0 ≤ h) (hlen : (pixels.length : Int) = w * h * 4)
    (hn : num_circles ≤ circles.length) :
    (∃ out, renderCirclesSequential circles num_circles w h pixels = some out ∧
      out.length = pixels.length) ∧
    ∀ x y : Int, 0 ≤ x → x < w → 0 ≤ y → y < h →
      0 ≤ (y * w + x) * 4 ∧ (y * w + x) * 4 + 3 < w * h * 4 := by
  refine ⟨⟨_, renderCirclesSequential_eq circles pixels hw hlen hn, ?_⟩, ?_⟩
  · rw [length_paintAll, List.length_replicate]
  · intro x y hx0 hxw hy0 hyh
    exact offset_bounds hx0 hxw hy0 hyh

/-- C10, witness: two circles, one of them reaching far outside a 4x3 canvas. -/
theorem C10_index_safety_witness :
    (∃ out, renderCirclesSequential [⟨-2, 1, 5, 1, 0, 0, 1 / 2⟩, ⟨7 / 2, 5 / 2, 3, 0, 1, 0, 1⟩]
        2 4 3 (List.replicate 48 200) = some out ∧
      out.length = (List.replicate 48 200).length) ∧
    ∀ x y : Int, 0 ≤ x → x < 4 → 0 ≤ y → y < 3 →
      0 ≤ (y * 4 + x) * 4 ∧ (y * 4 + x) * 4 + 3 < 4 * 3 * 4 :=
  C10_index_safety [⟨-2, 1, 5, 1, 0, 0, 1 / 2⟩, ⟨7 / 2, 5 / 2, 3, 0, 1, 0, 1⟩] 2 4 3
    (List.replicate 48 200) (by decide) (by decide) (by decide) (by decide)





theorem roundHalfEven_abs_sub_le (t : ℚ) : |(roundHalfEven t : ℚ) - t| ≤ 1 / 2 := by
  have h1 : (⌊t⌋ : ℚ) ≤ t := Int.floor_le t
  have h2 : t < ⌊t⌋ + 1 := Int.lt_floor_add_one t
  unfold roundHalfEven
  simp only
  rw [abs_le]
  split_ifs with ha hb hc
  · constructor <;> linarith
  · push_cast; constructor <;> linarith
  · constructor <;> linarith
  · push_cast; constructor <;> linarith

theorem roundHalfEven_nonneg {t : ℚ} (ht : 0 ≤ t) : 0 ≤ roundHalfEven t := by
  have h0 : 0 ≤ ⌊t⌋ := Int.floor_nonneg.mpr ht
  unfold roundHalfEven
  simp only
  split_ifs <;> omega

theorem f32round_nonneg {q : ℚ} (hq : 0 ≤ q) : 0 ≤ f32round q := by
  unfold f32round
  split_ifs with h0
  · exact le_rfl
  · simp only
    have hulp : (0 : ℚ) < 2 ^ (max (floorLog2 |q|) (-126) - 23) := by positivity
    have hr : 0 ≤ roundHalfEven (q / 2 ^ (max (floorLog2 |q|) (-126) - 23)) :=
      roundHalfEven_nonneg (div_nonneg hq hulp.le)
    exact mul_nonneg (by exact_mod_cast hr) hulp.le

/-- The rounding error of binary32: at most half a unit in the last place, which is at most
`2⁻²⁴ |q|` for a normal result and `2⁻¹⁵⁰` for a subnormal one. -/
theorem f32round_abs_sub_le (q : ℚ) :
    |f32round q - q| ≤ |q| / 2 ^ 24 + 1 / 2 ^ 150 := by
  unfold f32round
  split_ifs with h0
  · rw [h0]; simp
  · simp only
    have hqpos : 0 < |q| := abs_pos.mpr h0
    rw [floorLog2_eq_log _ hqpos]
    generalize hL : Int.log 2 |q| = L
    have hLq : (2 : ℚ) ^ L ≤ |q| := by
      have := Int.zpow_log_le_self (b := 2) (by norm_num) hqpos
      rw [hL] at this
      simpa using this
    generalize he : max L (-126) = e
    have hulp : (0 : ℚ) < 2 ^ (e - 23) := by positivity
    have herr := roundHalfEven_abs_sub_le (q / 2 ^ (e - 23))
    have hmul : |(roundHalfEven (q / 2 ^ (e - 23)) : ℚ) * 2 ^ (e - 23) - q| =
        |(roundHalfEven (q / 2 ^ (e - 23)) : ℚ) - q / 2 ^ (e - 23)| * 2 ^ (e - 23) := by
      rw [← abs_of_pos hulp, ← abs_mul, abs_of_pos hulp, sub_mul, div_mul_cancel₀ _ hulp.ne']
    rw [hmul]
    have hhalf : |(roundHalfEven (q / 2 ^ (e - 23)) : ℚ) - q / 2 ^ (e - 23)| * 2 ^ (e - 23) ≤
        1 / 2 * 2 ^ (e - 23) := mul_le_mul_of_nonneg_right herr hulp.le
    have hsplit : (1 / 2 : ℚ) * 2 ^ (e - 23) = 2 ^ e / 2 ^ 24 := by
      rw [show e - 23 = e - 24 + 1 by ring, zpow_add₀ (by norm_num : (2 : ℚ) ≠ 0),
        zpow_sub₀ (by norm_num : (2 : ℚ) ≠ 0)]
      norm_num
      ring
    have hcase : (2 : ℚ) ^ e / 2 ^ 24 ≤ |q| / 2 ^ 24 + 1 / 2 ^ 150 := by
      rcases le_total L (-126) with hle | hle
      · have : e = -126 := by rw [← he]; exact max_eq_right hle
        rw [this]
        have h1 : (2 : ℚ) ^ (-126 : ℤ) / 2 ^ 24 = 1 / 2 ^ 150 := by
          rw [zpow_neg]; norm_num
        rw [h1]
        have : 0 ≤ |q| / 2 ^ 24 := by positivity
        linarith
      · have : e = L := by rw [← he]; exact max_eq_left hle
        rw [this]
        have h1 : (2 : ℚ) ^ L / 2 ^ 24 ≤ |q| / 2 ^ 24 :=
          div_le_div_of_nonneg_right hLq (by positivity)
        have : (0 : ℚ) ≤ 1 / 2 ^ 150 := by positivity
        linarith
    linarith

/-- A cruder form of the rounding error bound. -/
theorem f32round_abs_sub_le_crude (q : ℚ) : |f32round q - q| ≤ (|q| + 1) / 2 ^ 24 := by
  have h := f32round_abs_sub_le q
  have h2 : (1 : ℚ) / 2 ^ 150 ≤ 1 / 2 ^ 24 := by
    apply one_div_le_one_div_of_le (by positivity)
    exact pow_le_pow_right₀ (by norm_num) (by norm_num)
  rw [add_div]
  linarith



/-- The computed blend of two bytes with a weight in `[0, 1]` is non-negative and within
`5 · 2⁻¹⁶` of the exact convex combination. -/
theorem blend_value_bounds (a : ℚ) (s d : ℕ) (ha0 : 0 ≤ a) (ha1 : a ≤ 1)
    (hs : s ≤ 255) (hd : d ≤ 255) :
    0 ≤ fadd (fmul a (s : ℚ)) (fmul (fsub 1 a) (d : ℚ)) ∧
    |fadd (fmul a (s : ℚ)) (fmul (fsub 1 a) (d : ℚ)) - (a * s + (1 - a) * d)| ≤ 5 / 65536 := by
  have hS0 : (0 : ℚ) ≤ s := Nat.cast_nonneg s
  have hS1 : (s : ℚ) ≤ 255 := by exact_mod_cast hs
  have hD0 : (0 : ℚ) ≤ d := Nat.cast_nonneg d
  have hD1 : (d : ℚ) ≤ 255 := by exact_mod_cast hd
  generalize (s : ℚ) = S at hS0 hS1 ⊢
  generalize (d : ℚ) = D at hD0 hD1 ⊢
  unfold fadd fmul fsub
  -- x = fl(a * S)
  have hx0 : 0 ≤ f32round (a * S) := f32round_nonneg (mul_nonneg ha0 hS0)
  have hxe := f32round_abs_sub_le_crude (a * S)
  rw [abs_of_nonneg (mul_nonneg ha0 hS0), abs_le] at hxe
  have haS : a * S ≤ 255 * a := by nlinarith
  generalize f32round (a * S) = x at hx0 hxe ⊢
  -- m = fl(1 - a)
  have hm0 : 0 ≤ f32round (1 - a) := f32round_nonneg (by linarith)
  have hme := f32round_abs_sub_le_crude (1 - a)
  rw [abs_of_nonneg (by linarith : 0 ≤ 1 - a), abs_le] at hme
  generalize f32round (1 - a) = m at hm0 hme ⊢
  -- y = fl(m * D)
  have hmD0 : 0 ≤ m * D := mul_nonneg hm0 hD0
  have hy0 : 0 ≤ f32round (m * D) := f32round_nonneg hmD0
  have hye := f32round_abs_sub_le_crude (m * D)
  rw [abs_of_nonneg hmD0, abs_le] at hye
  have hmD1 : m * D ≤ (1 - a) * D + 510 / 2 ^ 24 := by nlinarith
  have hmD2 : (1 - a) * D - 510 / 2 ^ 24 ≤ m * D := by nlinarith
  have haD : (1 - a) * D ≤ 255 * (1 - a) := by nlinarith
  generalize f32round (m * D) = y at hy0 hye ⊢
  -- v = fl(x + y)
  have hz0 : 0 ≤ x + y := add_nonneg hx0 hy0
  have hv0 : 0 ≤ f32round (x + y) := f32round_nonneg hz0
  have hve := f32round_abs_sub_le_crude (x + y)
  rw [abs_of_nonneg hz0, abs_le] at hve
  generalize f32round (x + y) = v at hv0 hve ⊢
  generalize hP : m * D = P at *
  generalize hQ : a * S = Q at *
  generalize hR : (1 - a) * D = R at *
  norm_num at hxe hme hye hve hmD1 hmD2
  refine ⟨hv0, ?_⟩
  rw [abs_le]
  constructor <;> linarith [hxe.1, hxe.2, hye.1, hye.2, hve.1, hve.2]



theorem toUChar_of_range {v : ℚ} (h0 : 0 ≤ v) (h1 : v < 256) : (toUChar v : ℤ) = ⌊v⌋ := by
  have hf0 : 0 ≤ ⌊v⌋ := Int.floor_nonneg.mpr h0
  have hf1 : ⌊v⌋ < 256 := Int.floor_lt.mpr (by exact_mod_cast h1)
  have ht : truncate v = ⌊v⌋ := by simp only [truncate, h0, if_true]
  have hi : toInt v = ⌊v⌋ := by rw [toInt_of_fits (by omega) (by omega), ht]
  simp only [toUChar, hi]
  omega

theorem srcValue_range {ch : ℚ} (hc0 : 0 ≤ ch) (hc1 : ch ≤ 1) :
    0 ≤ fmul ch 255 ∧ fmul ch 255 < 256 := by
  unfold fmul
  have h0 : 0 ≤ ch * 255 := by linarith
  refine ⟨f32round_nonneg h0, ?_⟩
  have he := f32round_abs_sub_le_crude (ch * 255)
  rw [abs_of_nonneg h0, abs_le] at he
  norm_num at he
  linarith [he.2]

/-- C14, counterexample: with alpha `3 · 2⁻²⁵` (in `[0, 1]`), source byte 255 (`r = 1`) and
destination byte 255, the computed blend is `255 - 2⁻¹⁶`, below `min(src, d) = 255`, and the
stored byte is 254 although the exact blend is 255; with alpha `753 · 2⁻²⁶` the computed blend
is `255 + 2⁻¹⁶`, above 255.  Rendering an opaque white circle and then a white circle with
alpha `3 · 2⁻²⁵` on a 1x1 canvas leaves `(254, 254, 254, 254)`. -/
theorem C14_counterexample_white_over_white :
    srcByte 1 = 255 ∧
    fadd (fmul (3 / 33554432) 255) (fmul (fsub 1 (3 / 33554432)) 255) = 16711679 / 65536 ∧
    (16711679 / 65536 : ℚ) < 255 ∧
    blendChannel (3 / 33554432) 255 255 = 254 ∧
    ⌊(3 / 33554432 : ℚ) * 255 + (1 - 3 / 33554432) * 255⌋ = 255 ∧
    fadd (fmul (753 / 67108864) 255) (fmul (fsub 1 (753 / 67108864)) 255) = 16711681 / 65536 ∧
    (255 : ℚ) < 16711681 / 65536 ∧
    renderCirclesSequential [⟨0, 0, 0, 1, 1, 1, 1⟩, ⟨0, 0, 0, 1, 1, 1, 3 / 33554432⟩] 2 1 1
      [0, 0, 0, 0] = some [254, 254, 254, 254] := by
  decide!

/-- C14 (as amended): for every alpha `a` and colour component `ch` in `[0, 1]` and every
destination byte `d ≤ 255`, the binary32 value `ch * 255` lies in `[0, 256)`, so the source
byte is its truncation; the binary32 blended value `a * src + (1 - a) * d` lies in `[0, 256)`
and within `5 · 2⁻¹⁶` of the exact blend, so the conversion to an 8-bit channel never wraps:
the stored byte is the truncation of the computed value, and it lies between
`min(src, d) - 1` and `max(src, d)`. -/
theorem C14_in_range_inputs_do_not_wrap (a ch : ℚ) (d : ℕ)
    (ha0 : 0 ≤ a) (ha1 : a ≤ 1) (hc0 : 0 ≤ ch) (hc1 : ch ≤ 1) (hd : d ≤ 255) :
    (0 ≤ fmul ch 255 ∧ fmul ch 255 < 256 ∧ (srcByte ch : ℤ) = ⌊fmul ch 255⌋) ∧
    (0 ≤ fadd (fmul a (srcByte ch : ℚ)) (fmul (fsub 1 a) (d : ℚ)) ∧
      fadd (fmul a (srcByte ch : ℚ)) (fmul (fsub 1 a) (d : ℚ)) < 256 ∧
      (blendChannel a (srcByte ch) d : ℤ) =
        ⌊fadd (fmul a (srcByte ch : ℚ)) (fmul (fsub 1 a) (d : ℚ))⌋) ∧
    |fadd (fmul a (srcByte ch : ℚ)) (fmul (fsub 1 a) (d : ℚ)) -
        (a * (srcByte ch : ℚ) + (1 - a) * (d : ℚ))| ≤ 5 / 65536 ∧
    min (srcByte ch) d - 1 ≤ blendChannel a (srcByte ch) d ∧
    blendChannel a (srcByte ch) d ≤ max (srcByte ch) d := by
  obtain ⟨hs0, hs1⟩ := srcValue_range hc0 hc1
  have hsb : srcByte ch ≤ 255 := by have := srcByte_lt ch; omega
  obtain ⟨hv0, hve⟩ := blend_value_bounds a (srcByte ch) d ha0 ha1 hsb hd
  have hbyte : blendChannel a (srcByte ch) d =
      toUChar (fadd (fmul a (srcByte ch : ℚ)) (fmul (fsub 1 a) (d : ℚ))) := rfl
  have hsrc : (srcByte ch : ℤ) = ⌊fmul ch 255⌋ := toUChar_of_range hs0 hs1
  generalize srcByte ch = s at hsb hv0 hve hbyte hsrc ⊢
  generalize hv : fadd (fmul a (s : ℚ)) (fmul (fsub 1 a) (d : ℚ)) = v at hv0 hve hbyte ⊢
  have hS0 : (0 : ℚ) ≤ s := Nat.cast_nonneg s
  have hS1 : (s : ℚ) ≤ 255 := by exact_mod_cast hsb
  have hD0 : (0 : ℚ) ≤ d := Nat.cast_nonneg d
  have hD1 : (d : ℚ) ≤ 255 := by exact_mod_cast hd
  rw [abs_le] at hve
  -- the exact blend lies between the two bytes
  have hlo : ((min s d : ℕ) : ℚ) ≤ a * s + (1 - a) * d := by
    rcases le_total s d with h | h
    · rw [min_eq_left h]
      have : (s : ℚ) ≤ d := by exact_mod_cast h
      nlinarith
    · rw [min_eq_right h]
      have : (d : ℚ) ≤ s := by exact_mod_cast h
      nlinarith
  have hhi : a * s + (1 - a) * d ≤ ((max s d : ℕ) : ℚ) := by
    rcases le_total s d with h | h
    · rw [max_eq_right h]
      have : (s : ℚ) ≤ d := by exact_mod_cast h
      nlinarith
    · rw [max_eq_left h]
      have : (d : ℚ) ≤ s := by exact_mod_cast h
      nlinarith
  have hmax : ((max s d : ℕ) : ℚ) ≤ 255 := by
    have : max s d ≤ 255 := max_le hsb hd
    exact_mod_cast this
  have hv1 : v < 256 := by linarith [hve.2]
  have hfl := toUChar_of_range hv0 hv1
  rw [← hbyte] at hfl
  have hge : ((min s d : ℕ) : ℤ) - 1 ≤ ⌊v⌋ := by
    rw [Int.le_floor]
    simp only [Int.cast_sub, Int.cast_natCast, Int.cast_one]
    linarith [hve.1]
  have hle : ⌊v⌋ < ((max s d : ℕ) : ℤ) + 1 := by
    rw [Int.floor_lt]
    simp only [Int.cast_add, Int.cast_natCast, Int.cast_one]
    linarith [hve.2]
  refine ⟨⟨hs0, hs1, hsrc⟩, ⟨hv0, hv1, hfl⟩, abs_le.mpr hve, ?_, ?_⟩
  · omega
  · omega

/-- C14, witness: alpha `3 · 2⁻²⁵`, colour component 1 and destination byte 255, the input of
the counterexample. -/
theorem C14_in_range_witness :
    (0 ≤ fmul (1 : ℚ) 255 ∧ fmul (1 : ℚ) 255 < 256 ∧
      (srcByte (1 : ℚ) : ℤ) = ⌊fmul (1 : ℚ) 255⌋) ∧
    (0 ≤ fadd (fmul (3 / 33554432) (srcByte (1 : ℚ) : ℚ))
        (fmul (fsub 1 (3 / 33554432)) ((255 : ℕ) : ℚ)) ∧
      fadd (fmul (3 / 33554432) (srcByte (1 : ℚ) : ℚ))
        (fmul (fsub 1 (3 / 33554432)) ((255 : ℕ) : ℚ)) < 256 ∧
      (blendChannel (3 / 33554432) (srcByte (1 : ℚ)) 255 : ℤ) =
        ⌊fadd (fmul (3 / 33554432) (srcByte (1 : ℚ) : ℚ))
          (fmul (fsub 1 (3 / 33554432)) ((255 : ℕ) : ℚ))⌋) ∧
    |fadd (fmul (3 / 33554432) (srcByte (1 : ℚ) : ℚ))
        (fmul (fsub 1 (3 / 33554432)) ((255 : ℕ) : ℚ)) -
        ((3 / 33554432 : ℚ) * (srcByte (1 : ℚ) : ℚ) +
          (1 - 3 / 33554432) * ((255 : ℕ) : ℚ))| ≤ 5 / 65536 ∧
    min (srcByte (1 : ℚ)) 255 - 1 ≤ blendChannel (3 / 33554432) (srcByte (1 : ℚ)) 255 ∧
    blendChannel (3 / 33554432) (srcByte (1 : ℚ)) 255 ≤ max (srcByte (1 : ℚ)) 255 :=
  C14_in_range_inputs_do_not_wrap (3 / 33554432) 1 255 (by norm_num) (by norm_num)
    (by norm_num) (by norm_num) (by norm_num)



/-- The truncation of a binary32 value is never `2³¹ - 1`: binary32 values from `2³⁰` on are
multiples of 128.  So `radius < INT_MAX`, and the increments `++dy`, `++dx` of the loops,
which run up to `radius`, do not overflow. -/
theorem toInt_f32round_lt_intMax (q : ℚ) : toInt (f32round q) < 2147483647 := by
  have hrange := (toInt_range (f32round q)).2
  rcases hrange.lt_or_eq with hlt | heq
  · exact hlt
  · exfalso
    -- the truncation is `2³¹ - 1`, so the value lies in `[2³¹ - 1, 2³¹)`
    have htr : truncate (f32round q) = 2147483647 := by
      unfold toInt at heq
      split_ifs at heq with h
      · exact heq
    have hv0 : 0 ≤ f32round q := by
      by_contra hneg
      have : truncate (f32round q) ≤ 0 := by
        simp only [truncate, hneg, if_false]
        have : 0 ≤ ⌊-f32round q⌋ := Int.floor_nonneg.mpr (by linarith)
        omega
      omega
    have hfl : ⌊f32round q⌋ = 2147483647 := by
      simpa only [truncate, hv0, if_true] using htr
    have hv1 : (2147483647 : ℚ) ≤ f32round q := by
      have := Int.floor_le (f32round q)
      rw [hfl] at this
      exact_mod_cast this
    have herr := f32round_abs_sub_le_crude q
    have hq0 : q ≠ 0 := by
      intro h0
      rw [h0, f32round_zero] at hv1
      norm_num at hv1
    have hqabs : (2 : ℚ) ^ (30 : ℤ) ≤ |q| := by
      rw [abs_le] at herr
      have h1 : f32round q - q ≤ (|q| + 1) / 2 ^ 24 := herr.2
      have h2 : q ≤ |q| := le_abs_self q
      norm_num at h1 ⊢
      linarith
    have hlog : (30 : ℤ) ≤ floorLog2 |q| := by
      rw [floorLog2_eq_log _ (abs_pos.mpr hq0)]
      exact (Int.zpow_le_iff_le_log (b := 2) (by norm_num) (abs_pos.mpr hq0)).mp
        (by simpa using hqabs)
    -- so the value is an integer multiple of `2⁷`
    have hform : ∃ M : ℤ, f32round q = ((M * 128 : ℤ) : ℚ) := by
      unfold f32round
      rw [if_neg hq0]
      simp only
      have he : max (floorLog2 |q|) (-126) = floorLog2 |q| := max_eq_left (by omega)
      rw [he]
      obtain ⟨k, hk⟩ : ∃ k : ℕ, floorLog2 |q| - 23 = ((k + 7 : ℕ) : ℤ) :=
        ⟨(floorLog2 |q| - 30).toNat, by push_cast; omega⟩
      rw [hk, zpow_natCast]
      refine ⟨roundHalfEven (q / 2 ^ (k + 7)) * 2 ^ k, ?_⟩
      push_cast
      rw [pow_add]
      norm_num
      ring
    obtain ⟨M, hM⟩ := hform
    rw [hM, Int.floor_intCast] at hfl
    omega

end Renderer
